import Mathlib

/-!
Verification development for the `scry` project exporter
(`src/scry/cli.py`).  The Python source is shallowly embedded below:
pure helpers become Lean functions over `String` / `List Char`, the
filesystem is an explicit tree (`FSEntry`), subprocess and file-read
outcomes are explicit result values, and Python `dict` insertion-order
semantics are modelled by association lists.

Conventions used throughout:
* Python strings are sequences of code points; we work over `String`
  via its `data : List Char` field, so slicing/length match Python.
* Python functions that keep the source's snake_case names do so here
  (`cdata_wrap`, `discover_modules`, ...); a leading underscore in the
  Python name is dropped (`_should_ignore` becomes `should_ignore`).
-/

/-! ## Python string primitives -/

/-- The whitespace characters stripped by Python `str.strip()` /
split on by `str.split()` (ASCII subset; the scanned files are text). -/
def isPySpace (c : Char) : Bool :=
  c = ' ' || c = '\t' || c = '\n' || c = '\r' || c = '\x0b' || c = '\x0c'

/-- Python `str.strip()`: drop leading and trailing whitespace. -/
def pyStrip (s : String) : String :=
  String.mk (((s.data.dropWhile isPySpace).reverse.dropWhile isPySpace).reverse)

/-- Split a character list at every occurrence of `sep`, keeping empty
segments — the semantics of Python `str.split(sep)` for a one-character
separator. -/
def splitCharAux (sep : Char) (cur : List Char) : List Char → List (List Char)
  | [] => [cur.reverse]
  | c :: cs => if c = sep then cur.reverse :: splitCharAux sep [] cs
               else splitCharAux sep (c :: cur) cs

/-- Python `content.splitlines()` as used by the scanner, modelled as a
split on `'\n'` (the universal-newline refinements do not matter for the
properties proved here; a trailing empty segment is skipped by the
scanner as an empty line). -/
def splitLines (s : String) : List String :=
  (splitCharAux '\n' [] s.data).map String.mk

/-- Core of Python `str.split()` with no argument: split on whitespace
runs and drop empty tokens. -/
def splitWsAux (cur : List Char) : List Char → List (List Char)
  | [] => if cur = [] then [] else [cur.reverse]
  | c :: cs =>
      if isPySpace c then
        (if cur = [] then splitWsAux [] cs else cur.reverse :: splitWsAux [] cs)
      else splitWsAux (c :: cur) cs

/-- Python `stripped.split()`. -/
def pySplitWs (s : String) : List String :=
  (splitWsAux [] s.data).map String.mk

/-- The characters stripped from entropy-candidate tokens, from the
source literal in `scan_content_for_secrets`
(quote, apostrophe, backtick, comma, semicolon, colon, equals,
parentheses, square brackets, curly braces, angle brackets, space). -/
def STRIP_CHARS : List Char :=
  ['"', '\'', '\x60', ',', ';', ':', '=', '(', ')', '[', ']', '\x7b', '\x7d', '<', ' ', '>']

/-- Python `token.strip(chars)`: drop the given characters from both
ends of the token. -/
def pyStripChars (s : String) : String :=
  String.mk (((s.data.dropWhile (STRIP_CHARS.contains ·)).reverse.dropWhile
    (STRIP_CHARS.contains ·)).reverse)

/-- Python `stripped.startswith(marker)` for a one-character marker. -/
def headIs (c : Char) (s : String) : Bool :=
  s.data.head? = some c

/-- Python `c in stripped` for a single character. -/
def containsChar (s : String) (c : Char) : Bool :=
  s.data.contains c

/-! ## Secret scanner (`scan_content_for_secrets` and friends) -/

/-- One finding dictionary, from the source's
`findings.append({...})` literals. -/
structure Finding where
  pattern_name : String
  description : String
  filepath : String
  line_number : Nat
  line_preview : String
deriving DecidableEq, Repr

/-- One entry of `SECRET_PATTERNS`: `(name, compiled regex, description)`.
The compiled regular expression is abstracted to its observable behaviour
`regex.search(line) is not None : String → Bool`; every property below is
proved for an arbitrary table, so it holds in particular for the fixed
22-entry `SECRET_PATTERNS` table of the source. -/
abbrev SecretPatternEntry := String × (String → Bool) × String

/-- The preview computation appearing (twice, identically) in
`scan_content_for_secrets`:
`preview = stripped; if len(preview) > 80: preview = preview[:77] + "..."`. -/
def truncate_preview (stripped : String) : String :=
  if 80 < stripped.length then String.mk (stripped.data.take 77) ++ "..." else stripped

/-- The comment-skip test of `scan_content_for_secrets`:
`stripped.startswith("#") and "=" not in stripped and ":" not in stripped`. -/
def isCommentOnly (stripped : String) : Bool :=
  headIs '#' stripped && !(containsChar stripped '=') && !(containsChar stripped ':')

/-- Frequencies of the distinct characters of a list, the
`freq.values()` of `_line_entropy`. -/
def charCounts (l : List Char) : List Nat :=
  l.dedup.map (fun c => l.count c)

/-- Decides `_line_entropy(s) >= 4.0` in exact arithmetic.
For character counts `c₁..cₖ` over a string of length `n`, the Shannon
entropy `H = log2 n - (1/n) * Σ cᵢ * log2 cᵢ` satisfies `H ≥ 4` iff
`2^(4n) * Π cᵢ^cᵢ ≤ n^n` (multiply by `n` and exponentiate); the source
computes `H` in floating point, which this models in real arithmetic. -/
def entropyGe4 (s : String) : Bool :=
  let n := s.data.length
  2 ^ (4 * n) * (charCounts s.data).foldl (fun a c => a * c ^ c) 1 ≤ n ^ n

/-- The token test of the entropy fallback, in the source's order:
`len(clean) >= 20 and _line_entropy(clean) >= 4.0 and any(c.isdigit() ...)
and any(c.isalpha() ...)`, applied to the stripped token. -/
def qualifiesToken (tok : String) : Bool :=
  let clean := pyStripChars tok
  decide (20 ≤ clean.length) && entropyGe4 clean
    && clean.data.any Char.isDigit && clean.data.any Char.isAlpha

/-- The entropy-fallback phase for one line: at most one finding, for
the first whitespace token of the trimmed line that qualifies
(`break` after the first). -/
def entropyFindings (filepath : String) (line_num : Nat) (stripped : String) :
    List Finding :=
  match (pySplitWs stripped).find? qualifiesToken with
  | some _ => [⟨"High-Entropy String", "Possible secret or token (high entropy)",
               filepath, line_num, truncate_preview stripped⟩]
  | none => []

/-- The pattern phase for one line: the loop
`for pattern_name, regex, description in SECRET_PATTERNS: if
regex.search(line): findings.append(...)` — one finding per matching
table entry, in table order, each previewing the trimmed line. -/
def patternFindings (ps : List SecretPatternEntry) (filepath : String)
    (line_num : Nat) (line stripped : String) : List Finding :=
  ps.filterMap (fun p =>
    if p.2.1 line then
      some ⟨p.1, p.2.2, filepath, line_num, truncate_preview stripped⟩
    else none)

/-- The per-line body of `scan_content_for_secrets`: skip blank lines
and pure comments, run every secret pattern, and run the entropy
fallback only when no pattern matched (`if not matched`). -/
def scanLineFindings (ps : List SecretPatternEntry) (filepath : String)
    (line_num : Nat) (line : String) : List Finding :=
  let stripped := pyStrip line
  if stripped = "" then []
  else if isCommentOnly stripped then []
  else
    let pf := patternFindings ps filepath line_num line stripped
    pf ++ (if pf = [] then entropyFindings filepath line_num stripped else [])

/-- `for line_num, line in enumerate(content.splitlines(), start=1)`. -/
def scanLinesFrom (ps : List SecretPatternEntry) (filepath : String) :
    Nat → List String → List Finding
  | _, [] => []
  | n, line :: rest =>
      scanLineFindings ps filepath n line ++ scanLinesFrom ps filepath (n + 1) rest

/-- `scan_content_for_secrets(content, filepath)`, parameterised by the
pattern table it closes over. -/
def scan_content_for_secrets (ps : List SecretPatternEntry)
    (content filepath : String) : List Finding :=
  scanLinesFrom ps filepath 1 (splitLines content)

/-- Python `Path(filepath).name`: the final path component. -/
def pathName (filepath : String) : String :=
  ((splitCharAux '/' [] filepath.data).map String.mk).getLastD ""

/-- `scan_filename_for_secrets(filepath)`, parameterised by the
`SENSITIVE_FILE_PATTERNS` table (each regex abstracted to its
`regex.match(name) is not None` behaviour). -/
def scan_filename_for_secrets (fps : List (String × (String → Bool)))
    (filepath : String) : List Finding :=
  let name := pathName filepath
  fps.filterMap (fun p =>
    if p.2 name then
      some ⟨p.1, "Sensitive file type: " ++ name, filepath, 0, "(filename match)"⟩
    else none)

/-- Outcome of `path.read_text(encoding="utf-8")` for an existing file:
success, or one of the two exception classes the source catches. -/
inductive ReadResult where
  | ok (content : String)
  | decodeError
  | permissionError
deriving DecidableEq

/-- The content-layer contribution of one file inside
`scan_files_for_secrets`: `if path.exists(): try: ... read_text ...
except (UnicodeDecodeError, PermissionError): pass`.  The filesystem is
modelled as a map from file path to an optional read outcome (`none`
when `path.exists()` is false). -/
def contentFindings (cps : List SecretPatternEntry)
    (fs : String → Option ReadResult) (filepath : String) : List Finding :=
  match fs filepath with
  | some (.ok content) => scan_content_for_secrets cps content filepath
  | some .decodeError => []
  | some .permissionError => []
  | none => []

/-- `scan_files_for_secrets(files, root)`: the batch loop accumulating
filename-layer then content-layer findings per file. -/
def scan_files_for_secrets (cps : List SecretPatternEntry)
    (fps : List (String × (String → Bool))) (fs : String → Option ReadResult)
    (files : List String) : List Finding :=
  files.foldl
    (fun acc f => (acc ++ scan_filename_for_secrets fps f) ++ contentFindings cps fs f)
    []

/-! ## Scanner lemmas -/

theorem filterMap_guard_eq_map_filter {α β : Type} (g : α → Bool) (h : α → β)
    (l : List α) :
    l.filterMap (fun a => if g a then some (h a) else none) = (l.filter g).map h := by
  induction l with
  | nil => rfl
  | cons x xs ih => by_cases hx : g x <;> simp [List.filterMap_cons, List.filter_cons, hx, ih]

theorem patternFindings_eq_map_filter (ps : List SecretPatternEntry)
    (fp : String) (ln : Nat) (line stripped : String) :
    patternFindings ps fp ln line stripped
      = (ps.filter (fun p => p.2.1 line)).map
          (fun p => ⟨p.1, p.2.2, fp, ln, truncate_preview stripped⟩) :=
  filterMap_guard_eq_map_filter _ _ ps

theorem entropyFindings_length_le (fp : String) (ln : Nat) (stripped : String) :
    (entropyFindings fp ln stripped).length ≤ 1 := by
  unfold entropyFindings
  cases (pySplitWs stripped).find? qualifiesToken <;> simp

theorem patternFindings_ne_nil (ps : List SecretPatternEntry) (fp : String)
    (ln : Nat) (line stripped : String)
    (h : ps.any (fun p => p.2.1 line) = true) :
    patternFindings ps fp ln line stripped ≠ [] := by
  obtain ⟨p, hp, hmatch⟩ := List.any_eq_true.1 h
  apply List.ne_nil_of_mem (a := (⟨p.1, p.2.2, fp, ln, truncate_preview stripped⟩ : Finding))
  exact List.mem_filterMap.2 ⟨p, hp, by simp [hmatch]⟩

theorem scanLineFindings_empty_of_blank (ps : List SecretPatternEntry)
    (fp : String) (ln : Nat) (line : String) (hs : pyStrip line = "") :
    scanLineFindings ps fp ln line = [] := by
  simp [scanLineFindings, hs]

theorem scanLineFindings_empty_of_comment (ps : List SecretPatternEntry)
    (fp : String) (ln : Nat) (line : String)
    (hc : isCommentOnly (pyStrip line) = true) :
    scanLineFindings ps fp ln line = [] := by
  simp [scanLineFindings, hc]

theorem scanLineFindings_eq (ps : List SecretPatternEntry) (fp : String)
    (ln : Nat) (line : String) (hs : pyStrip line ≠ "")
    (hc : isCommentOnly (pyStrip line) = false) :
    scanLineFindings ps fp ln line
      = patternFindings ps fp ln line (pyStrip line)
        ++ (if patternFindings ps fp ln line (pyStrip line) = []
            then entropyFindings fp ln (pyStrip line) else []) := by
  simp [scanLineFindings, hs, hc]

theorem scanLine_preview (ps : List SecretPatternEntry) (fp : String) (ln : Nat)
    (line : String) (f : Finding) (hf : f ∈ scanLineFindings ps fp ln line) :
    f.line_preview = truncate_preview (pyStrip line) := by
  by_cases hs : pyStrip line = ""
  · rw [scanLineFindings_empty_of_blank ps fp ln line hs] at hf
    exact absurd hf (List.not_mem_nil f)
  cases hcb : isCommentOnly (pyStrip line) with
  | true =>
      rw [scanLineFindings_empty_of_comment ps fp ln line hcb] at hf
      exact absurd hf (List.not_mem_nil f)
  | false =>
  rw [scanLineFindings_eq ps fp ln line hs hcb] at hf
  rcases List.mem_append.1 hf with hpat | hent
  · obtain ⟨p, _, hp⟩ := List.mem_filterMap.1 hpat
    by_cases hm : p.2.1 line = true
    · rw [if_pos hm] at hp
      cases hp
      rfl
    · simp [hm] at hp
  · by_cases hemp : patternFindings ps fp ln line (pyStrip line) = []
    · rw [if_pos hemp] at hent
      unfold entropyFindings at hent
      cases hfind : (pySplitWs (pyStrip line)).find? qualifiesToken <;>
        rw [hfind] at hent
      · simp at hent
      · rcases List.mem_singleton.1 hent with rfl
        rfl
    · rw [if_neg hemp] at hent
      simp at hent

theorem truncate_preview_length (s : String) : (truncate_preview s).length ≤ 80 := by
  unfold truncate_preview
  by_cases h : 80 < s.length
  · rw [if_pos h, String.length_append]
    have h1 : (String.mk (s.data.take 77)).length = (s.data.take 77).length := rfl
    have h2 : (s.data.take 77).length ≤ 77 := by
      rw [List.length_take]; omega
    have h3 : ("..." : String).length = 3 := rfl
    omega
  · rw [if_neg h]; omega

theorem mem_scanLinesFrom (ps : List SecretPatternEntry) (fp : String) :
    ∀ (n : Nat) (lines : List String) (f : Finding),
      f ∈ scanLinesFrom ps fp n lines →
      ∃ ln line, line ∈ lines ∧ f ∈ scanLineFindings ps fp ln line := by
  intro n lines
  induction lines generalizing n with
  | nil => intro f hf; simp [scanLinesFrom] at hf
  | cons l rest ih =>
      intro f hf
      rcases List.mem_append.1 hf with h | h
      · exact ⟨n, l, List.mem_cons_self _ _, h⟩
      · obtain ⟨ln, line, hmem, hline⟩ := ih (n + 1) f h
        exact ⟨ln, line, List.mem_cons_of_mem _ hmem, hline⟩

/-! ## Claims C2, C3, C4, C5 -/

/-- Claim C2: in content scanning the entropy fallback runs on a line only
when no secret pattern matched that line (first conjunct: if any pattern
matches, the line's findings are exactly the pattern-phase findings and
the fallback contributes nothing); the fallback emits at most one
High-Entropy finding per line (second conjunct: the line's finding count
exceeds the pattern-phase count by at most one, and see
`entropyFindings_length_le`); and a line whose only candidate token is the
twenty-character zero-entropy string "aaaaaaaaaaaaaaaaaaaa" never yields a
High-Entropy finding (third conjunct: the fallback on that line is empty —
the token fails both the entropy-threshold and the must-contain-a-digit
tests).  Proved for every pattern table, hence for the source's fixed
`SECRET_PATTERNS`. -/
theorem C2_entropy_fallback (ps : List SecretPatternEntry) (fp : String) (ln : Nat)
    (line : String) (h1 : pyStrip line ≠ "")
    (h2 : isCommentOnly (pyStrip line) = false) :
    (ps.any (fun p => p.2.1 line) = true →
      scanLineFindings ps fp ln line = patternFindings ps fp ln line (pyStrip line))
    ∧ (scanLineFindings ps fp ln line).length
        ≤ (patternFindings ps fp ln line (pyStrip line)).length + 1
    ∧ entropyFindings fp ln "aaaaaaaaaaaaaaaaaaaa" = [] := by
  refine ⟨?_, ?_, rfl⟩
  · intro hany
    have hpf := patternFindings_ne_nil ps fp ln line (pyStrip line) hany
    rw [scanLineFindings_eq ps fp ln line h1 h2, if_neg hpf, List.append_nil]
  · rw [scanLineFindings_eq ps fp ln line h1 h2, List.length_append]
    have hle := entropyFindings_length_le fp ln (pyStrip line)
    by_cases hemp : patternFindings ps fp ln line (pyStrip line) = []
    · rw [if_pos hemp]; omega
    · rw [if_neg hemp]; simp

/-- Witness for C2 at a concrete input: a one-entry table whose matcher
fires on the line `"key = abc"`. -/
theorem C2_entropy_fallback_witness :
    pyStrip "key = abc" ≠ "" ∧ isCommentOnly (pyStrip "key = abc") = false ∧
    ((([("Generic Secret", fun s => containsChar s '=', "d")] :
        List SecretPatternEntry).any (fun p => p.2.1 "key = abc") = true →
      scanLineFindings [("Generic Secret", fun s => containsChar s '=', "d")]
          "f.py" 1 "key = abc"
        = patternFindings [("Generic Secret", fun s => containsChar s '=', "d")]
            "f.py" 1 "key = abc" (pyStrip "key = abc"))
    ∧ (scanLineFindings [("Generic Secret", fun s => containsChar s '=', "d")]
          "f.py" 1 "key = abc").length
        ≤ (patternFindings [("Generic Secret", fun s => containsChar s '=', "d")]
            "f.py" 1 "key = abc" (pyStrip "key = abc")).length + 1
    ∧ entropyFindings "f.py" 1 "aaaaaaaaaaaaaaaaaaaa" = []) :=
  ⟨by decide, by decide,
   C2_entropy_fallback [("Generic Secret", fun s => containsChar s '=', "d")]
     "f.py" 1 "key = abc" (by decide) (by decide)⟩

/-- Claim C3: every content-layer finding stores as its preview the
trimmed offending line passed through the fixed truncation (never an
isolated matched substring — the preview is a function of the whole
trimmed line only); the preview length never exceeds 80 characters; and
when the trimmed line exceeds 80 characters the preview is its first 77
characters followed by the ellipsis marker `"..."`.  Proved for every
pattern table, hence for the source's fixed `SECRET_PATTERNS`. -/
theorem C3_preview_redaction (ps : List SecretPatternEntry) (content fp : String)
    (f : Finding) (hf : f ∈ scan_content_for_secrets ps content fp) :
    f.line_preview.length ≤ 80 ∧
    ∃ line, line ∈ splitLines content ∧
      f.line_preview = truncate_preview (pyStrip line) ∧
      (80 < (pyStrip line).length →
        f.line_preview = String.mk ((pyStrip line).data.take 77) ++ "...") := by
  obtain ⟨ln, line, hmem, hline⟩ :=
    mem_scanLinesFrom ps fp 1 (splitLines content) f hf
  have hp := scanLine_preview ps fp ln line f hline
  refine ⟨hp ▸ truncate_preview_length _, line, hmem, hp, ?_⟩
  intro hlen
  rw [hp]
  unfold truncate_preview
  rw [if_pos hlen]

/-- Witness for C3 at a concrete input: an always-matching one-entry table
and a single 85-character line, whose preview is its first 77 characters
followed by the ellipsis marker. -/
theorem C3_preview_redaction_witness :
    (⟨"T", "d", "f.py", 1,
      "xxxxxxxxxxxxxxxxxxxxxxxxxxxxxxxxxxxxxxxxxxxxxxxxxxxxxxxxxxxxxxxxxxxxxxxxxxxxx..."⟩ : Finding)
      ∈ scan_content_for_secrets [("T", fun _ => true, "d")]
          "xxxxxxxxxxxxxxxxxxxxxxxxxxxxxxxxxxxxxxxxxxxxxxxxxxxxxxxxxxxxxxxxxxxxxxxxxxxxxxxxxxxxx"
          "f.py" ∧
    ((⟨"T", "d", "f.py", 1,
      "xxxxxxxxxxxxxxxxxxxxxxxxxxxxxxxxxxxxxxxxxxxxxxxxxxxxxxxxxxxxxxxxxxxxxxxxxxxxx..."⟩ : Finding).line_preview.length ≤ 80 ∧
    ∃ line, line ∈ splitLines
          "xxxxxxxxxxxxxxxxxxxxxxxxxxxxxxxxxxxxxxxxxxxxxxxxxxxxxxxxxxxxxxxxxxxxxxxxxxxxxxxxxxxxx" ∧
      (⟨"T", "d", "f.py", 1,
        "xxxxxxxxxxxxxxxxxxxxxxxxxxxxxxxxxxxxxxxxxxxxxxxxxxxxxxxxxxxxxxxxxxxxxxxxxxxxx..."⟩ : Finding).line_preview
        = truncate_preview (pyStrip line) ∧
      (80 < (pyStrip line).length →
        (⟨"T", "d", "f.py", 1,
          "xxxxxxxxxxxxxxxxxxxxxxxxxxxxxxxxxxxxxxxxxxxxxxxxxxxxxxxxxxxxxxxxxxxxxxxxxxxxx..."⟩ : Finding).line_preview
          = String.mk ((pyStrip line).data.take 77) ++ "...")) :=
  ⟨by decide,
   C3_preview_redaction [("T", fun _ => true, "d")]
     "xxxxxxxxxxxxxxxxxxxxxxxxxxxxxxxxxxxxxxxxxxxxxxxxxxxxxxxxxxxxxxxxxxxxxxxxxxxxxxxxxxxxx"
     "f.py" _ (by decide)⟩

/-- Claim C4: for a non-empty, non-comment-skipped line, every entry of
the pattern table that matches the line produces exactly one finding —
the line's findings are the table filtered to the matching entries,
mapped one-to-one onto findings in table order, followed only by the
(at most one) entropy-fallback finding; evaluation does not stop at the
first matching pattern, so a line matched by several patterns yields one
finding per matching pattern.  Proved for every pattern table, hence for
the source's fixed `SECRET_PATTERNS`. -/
theorem C4_every_matching_pattern_fires (ps : List SecretPatternEntry)
    (fp : String) (ln : Nat) (line : String) (h1 : pyStrip line ≠ "")
    (h2 : isCommentOnly (pyStrip line) = false) :
    ∃ rest, rest.length ≤ 1 ∧
      scanLineFindings ps fp ln line
        = (ps.filter (fun p => p.2.1 line)).map
            (fun p => ⟨p.1, p.2.2, fp, ln, truncate_preview (pyStrip line)⟩) ++ rest := by
  refine ⟨if patternFindings ps fp ln line (pyStrip line) = []
          then entropyFindings fp ln (pyStrip line) else [], ?_, ?_⟩
  · by_cases hemp : patternFindings ps fp ln line (pyStrip line) = []
    · rw [if_pos hemp]; exact entropyFindings_length_le fp ln (pyStrip line)
    · rw [if_neg hemp]; simp
  · rw [scanLineFindings_eq ps fp ln line h1 h2,
        patternFindings_eq_map_filter ps fp ln line (pyStrip line)]

/-- Witness for C4 at a concrete input: a two-entry table whose matchers
both fire on the line `"abc def"`, yielding one finding per entry. -/
theorem C4_every_matching_pattern_fires_witness :
    pyStrip "abc def" ≠ "" ∧ isCommentOnly (pyStrip "abc def") = false ∧
    (∃ rest, rest.length ≤ 1 ∧
      scanLineFindings
          [("A", fun _ => true, "da"), ("B", fun _ => true, "db")]
          "f.py" 1 "abc def"
        = (([("A", fun _ => true, "da"), ("B", fun _ => true, "db")] :
              List SecretPatternEntry).filter (fun p => p.2.1 "abc def")).map
            (fun p => ⟨p.1, p.2.2, "f.py", 1, truncate_preview (pyStrip "abc def")⟩)
          ++ rest) :=
  ⟨by decide, by decide,
   C4_every_matching_pattern_fires
     [("A", fun _ => true, "da"), ("B", fun _ => true, "db")]
     "f.py" 1 "abc def" (by decide) (by decide)⟩

/-- Claim C5: scanning a batch of files is total and degrades per file —
the batch result is always the concatenation, file by file, of that
file's filename-layer findings followed by its content-layer findings,
and for a file whose content read fails with a decode or permission
error the content layer contributes nothing while the filename-layer
findings for it are still present.  (In the embedding, the two caught
exception classes are the two error constructors of `ReadResult`; the
scan is a Lean function, so no exception reaches the caller and a —
possibly empty — finding list is always returned.) -/
theorem C5_batch_scan_degrades (cps : List SecretPatternEntry)
    (fps : List (String × (String → Bool))) (fs : String → Option ReadResult)
    (files : List String) :
    scan_files_for_secrets cps fps fs files
      = files.flatMap
          (fun f => scan_filename_for_secrets fps f ++ contentFindings cps fs f)
    ∧ ∀ f, (fs f = some .decodeError ∨ fs f = some .permissionError) →
        contentFindings cps fs f = [] := by
  constructor
  · have key : ∀ (l : List String) (acc : List Finding),
        l.foldl (fun acc f =>
          (acc ++ scan_filename_for_secrets fps f) ++ contentFindings cps fs f) acc
          = acc ++ l.flatMap
              (fun f => scan_filename_for_secrets fps f ++ contentFindings cps fs f) := by
      intro l
      induction l with
      | nil => intro acc; simp
      | cons x xs ih =>
          intro acc
          rw [List.foldl_cons, ih, List.flatMap_cons]
          simp [List.append_assoc]
    exact key files []
  · intro f hf
    rcases hf with h | h <;> simp [contentFindings, h]

/-- Witness for C5 at a concrete input: a filesystem in which
`"bad.py"` raises `PermissionError`, whose content layer is empty. -/
theorem C5_batch_scan_degrades_witness :
    ((fun f => if f = "bad.py" then some ReadResult.permissionError else none)
        "bad.py" = some ReadResult.permissionError) ∧
    contentFindings []
      (fun f => if f = "bad.py" then some ReadResult.permissionError else none)
      "bad.py" = [] :=
  ⟨by decide,
   (C5_batch_scan_degrades [] []
     (fun f => if f = "bad.py" then some ReadResult.permissionError else none)
     ["bad.py"]).2 "bad.py" (Or.inr (by decide))⟩

/-! ## Path and name helpers for discovery -/

/-- Python string `<` (lexicographic on code points) on character lists. -/
def strLtAux : List Char → List Char → Bool
  | [], [] => false
  | [], _ :: _ => true
  | _ :: _, [] => false
  | a :: as, b :: bs => if a = b then strLtAux as bs else decide (a < b)

/-- `a <= b` in Python string order; the key used by `sorted(...)` on
names and (via the rendered path) on `Path` values. -/
def strLe (a b : String) : Bool := !(strLtAux b.data a.data)

/-- Insertion step of a sort by a boolean `le`. -/
def insertSorted (le : α → α → Bool) (x : α) : List α → List α
  | [] => [x]
  | y :: ys => if le x y then x :: y :: ys else y :: insertSorted le x ys

/-- Python `sorted(...)` by a boolean `le` (insertion sort; the inputs
sorted by the source have pairwise distinct keys, so any correct sort
produces the same list). -/
def sortBy (le : α → α → Bool) : List α → List α
  | [] => []
  | x :: xs => insertSorted le x (sortBy le xs)

/-- Render root-relative path components as Python
`str(p.relative_to(root))` does (slash-joined). -/
def renderPath : List String → String
  | [] => ""
  | [s] => s
  | s :: rest => s ++ "/" ++ renderPath rest

/-- Split a configured directory string into path components
(`root / d` accepts nested values like `"src/pkg"`). -/
def splitSlash (s : String) : List String :=
  (splitCharAux '/' [] s.data).map String.mk

/-- Python `Path(name).suffix`: `i = name.rfind('.')`; the suffix is
`name[i:]` when `0 < i < len(name) - 1`, else `""`. -/
def pySuffix (name : String) : String :=
  let cs := name.data
  match cs.reverse.findIdx? (· = '.') with
  | some j =>
      let i := cs.length - 1 - j
      if 0 < i && i < cs.length - 1 then String.mk (cs.drop i) else ""
  | none => ""

/-- The suffixes (original list and one shorter each step) of a list. -/
def listTails : List Char → List (List Char)
  | [] => [[]]
  | c :: cs => (c :: cs) :: listTails cs

/-- Python `fnmatch.fnmatch` restricted to the pattern forms the
repository's configuration uses (`*`, `?` and literal characters; no
bracket classes appear in any `ignore_patterns` value, and POSIX
`normcase` is the identity). -/
def fnmatchAux : List Char → List Char → Bool
  | [], t => decide (t = [])
  | '*' :: ps, t => (listTails t).any (fun suf => fnmatchAux ps suf)
  | '?' :: ps, t => match t with
      | [] => false
      | _ :: cs => fnmatchAux ps cs
  | p :: ps, t => match t with
      | [] => false
      | c :: cs => p = c && fnmatchAux ps cs

/-- `fnmatch(name, p)`. -/
def fnmatch (name pattern : String) : Bool := fnmatchAux pattern.data name.data

/-! ## Configuration -/

/-- The configuration fields the discovery core reads
(`config["..."]` accesses in the source). -/
structure Config where
  ignore_dirs : List String
  ignore_patterns : List String
  extensions : List String
  source_dirs : Option (List String)
  core_files : Option (List String)

/-- `DEFAULT_CONFIG` (the fields used by discovery). -/
def DEFAULT_CONFIG : Config where
  ignore_dirs := [".git", "__pycache__", ".pytest_cache", "venv", ".venv",
    "env", ".env", "node_modules", ".mypy_cache", ".ruff_cache",
    "dist", "build", ".tox", ".nox", ".eggs", "htmlcov",
    ".coverage", ".ipynb_checkpoints", ".idea", ".vscode"]
  ignore_patterns := ["*.egg-info", "*.pyc", "*.pyo"]
  extensions := [".py"]
  source_dirs := none
  core_files := none

/-- `CORE_FILE_CANDIDATES`. -/
def CORE_FILE_CANDIDATES : List String :=
  ["pyproject.toml", "setup.py", "setup.cfg", "README.md", "README.rst",
   "requirements.txt", "Makefile", "Dockerfile", "docker-compose.yml",
   ".env.example"]

/-- The fixed special-directory list of `discover_all_modules`. -/
def SPECIAL_DIRS : List String :=
  ["tests", "test", "scripts", "examples", "benchmarks", "notebooks"]

/-- `_should_ignore(name, config)`: name in the ignore-directory set, or
matching an ignore glob, or starting with a dot. -/
def should_ignore (name : String) (config : Config) : Bool :=
  config.ignore_dirs.contains name
  || config.ignore_patterns.any (fun p => fnmatch name p)
  || headIs '.' name

/-- Python truthiness of an optional list (`if config.get("...")`):
`None` and `[]` are falsy. -/
def truthyOpt : Option (List String) → Bool
  | some (_ :: _) => true
  | _ => false

/-! ## Filesystem model -/

/-- A snapshot of a directory tree: the state `discover_*` functions
read through `iterdir` / `rglob` / `exists`. -/
inductive FSEntry where
  | file (name : String)
  | dir (name : String) (children : List FSEntry)

def FSEntry.name : FSEntry → String
  | .file n => n
  | .dir n _ => n

def FSEntry.isFile : FSEntry → Bool
  | .file _ => true
  | .dir _ _ => false

def FSEntry.isDir : FSEntry → Bool
  | .file _ => false
  | .dir _ _ => true

def FSEntry.children : FSEntry → List FSEntry
  | .file _ => []
  | .dir _ cs => cs

/-- `(e / n)` resolved one level (directory entries have unique names in
a real filesystem snapshot). -/
def findChild (e : FSEntry) (n : String) : Option FSEntry :=
  e.children.find? (fun c => c.name = n)

/-- Python `(e / n).exists()` for a direct child (true for files and
directories alike). -/
def hasChild (e : FSEntry) (n : String) : Bool :=
  (findChild e n).isSome

/-- Resolve a relative component path below an entry. -/
def lookupPath : List String → FSEntry → Option FSEntry
  | [], e => some e
  | _ :: _, .file _ => none
  | s :: rest, .dir n cs =>
      match (FSEntry.dir n cs).children.find? (fun c => c.name = s) with
      | some c => lookupPath rest c
      | none => none

mutual

/-- Node count of a tree, used as recursion fuel (it bounds the tree
depth, since every level contributes at least one node). -/
def sizeE : FSEntry → Nat
  | .file _ => 1
  | .dir _ cs => 1 + sizeL cs

/-- Node count of a forest. -/
def sizeL : List FSEntry → Nat
  | [] => 0
  | c :: cs => sizeE c + sizeL cs

end

/-- All strict descendants of an entry with their paths relative to it,
fuel-bounded so the recursion is structural; `sizeE e` fuel (one unit
per tree level, and every level holds at least one node) never
truncates. -/
def descendantsF : Nat → FSEntry → List (List String × FSEntry)
  | 0, _ => []
  | _ + 1, .file _ => []
  | fuel + 1, .dir _ cs =>
      (cs.map (fun c =>
        ([c.name], c) :: (descendantsF fuel c).map (fun pr => (c.name :: pr.1, pr.2)))).flatten

/-- `sorted(item.rglob("*"))`: every descendant, ordered by Python
`Path` comparison — string comparison of the slash-joined path (the
shared absolute prefix cancels, so comparing paths relative to `item`
gives the same order). -/
def rglobSorted (e : FSEntry) : List (List String × FSEntry) :=
  sortBy (fun a b => strLe (renderPath a.1) (renderPath b.1)) (descendantsF (sizeE e) e)

/-! ## Association lists with Python `dict` semantics -/

/-- `d[k] = v`: overwrite in place if the key exists (keeping its
insertion position), else append. -/
def dictInsert : List (String × α) → String → α → List (String × α)
  | [], k, v => [(k, v)]
  | p :: rest, k, v => if p.1 = k then (k, v) :: rest else p :: dictInsert rest k v

/-- `d.get(k)` over the association list. -/
def dictLookup (k : String) : List (String × α) → Option α
  | [] => none
  | p :: rest => if p.1 = k then some p.2 else dictLookup k rest

/-- `d.update(other)`: insert every entry of `other` in order. -/
def dictUpdate (m l : List (String × α)) : List (String × α) :=
  l.foldl (fun acc p => dictInsert acc p.1 p.2) m

/-- `files_by_dir[rel_dir].append(entry)` on a `defaultdict(list)`. -/
def dictAppend : List (String × List String) → String → String → List (String × List String)
  | [], k, v => [(k, [v])]
  | p :: rest, k, v =>
      if p.1 = k then (p.1, p.2 ++ [v]) :: rest else p :: dictAppend rest k v

/-! ## `discover_all_files` (file listing walk) -/

/-- The composite sort key of `_walk` and the tree:
`key=lambda x: (x.is_file(), x.name)` — directories before files, then
name order. -/
def walkKeyLe (a b : FSEntry) : Bool :=
  if a.isFile = b.isFile then strLe a.name b.name else a.isFile = false

/-- The extension filter of `discover_all_files` (`None` admits every
file). -/
def extAllowed : Option (List String) → String → Bool
  | none, _ => true
  | some exts, n => exts.contains (pySuffix n)

/-- `_walk(directory)` of `discover_all_files`: sorted entries, the
three inline ignore tests (identical to `_should_ignore`), recursion
into surviving directories and collection of surviving files as
`(parent-relative-dir, name)` pairs.  Fuel-bounded structurally;
`sizeE root` fuel never truncates. -/
def walkEntryF (config : Config) (extF : Option (List String)) :
    Nat → List String → FSEntry → List (List String × String)
  | 0, _, _ => []
  | _ + 1, _, .file _ => []
  | fuel + 1, pfx, .dir _ cs =>
      (sortBy walkKeyLe cs).flatMap (fun e =>
        if should_ignore e.name config then []
        else match e with
          | .file n => if extAllowed extF n then [(pfx, n)] else []
          | .dir n _ => walkEntryF config extF fuel (pfx ++ [n]) e)

/-- `str(entry.parent.relative_to(root))`, which is `"."` at the root. -/
def renderDirKey (d : List String) : String :=
  if d = [] then "." else renderPath d

/-- `discover_all_files(root, config, extension_filter)`: the walk
grouped by parent directory in first-appearance order. -/
def discover_all_files (root : FSEntry) (config : Config)
    (extF : Option (List String)) : List (String × List String) :=
  (walkEntryF config extF (sizeE root) [] root).foldl
    (fun acc pr => dictAppend acc (renderDirKey pr.1) (renderPath (pr.1 ++ [pr.2]))) []

/-! ## Module discovery -/

/-- `sorted(d.iterdir())`: `Path` order within one directory is name
order. -/
def nameLe (a b : FSEntry) : Bool := strLe a.name b.name

/-- `discover_source_dirs(root, config)`: the explicit override filtered
to existing directories, or `src`-children with a package marker (sorted)
followed by non-ignored root children with a package marker (sorted) that
are not already collected.  Each result carries its root-relative path. -/
def discover_source_dirs (root : FSEntry) (config : Config) :
    List (List String × FSEntry) :=
  if truthyOpt config.source_dirs then
    (config.source_dirs.getD []).filterMap (fun d =>
      match lookupPath (splitSlash d) root with
      | some e => if e.isDir then some (splitSlash d, e) else none
      | none => none)
  else
    let fromSrc :=
      match findChild root "src" with
      | some (.dir _ scs) =>
          (sortBy nameLe scs).filterMap (fun it =>
            if it.isDir && hasChild it "__init__.py" then
              some (["src", it.name], it)
            else none)
      | _ => []
    (sortBy nameLe root.children).foldl (fun acc it =>
      if it.isDir && !(should_ignore it.name config) && hasChild it "__init__.py"
          && !(acc.any (fun sd => sd.1 == [it.name])) then
        acc ++ [([it.name], it)]
      else acc) fromSrc

/-- The body of the subdirectory loop of `discover_modules`: for a
non-ignored immediate subdirectory, collect every `rglob` descendant
that is a file with an allowed extension and a non-ignored basename
(note: intermediate directory names below the subdirectory are not
tested), and store the non-empty list under the subdirectory's name. -/
def moduleStep (sdPath : List String) (config : Config)
    (m : List (String × List String)) : FSEntry → List (String × List String)
  | .file _ => m
  | .dir nm cs =>
      if should_ignore nm config then m
      else
        let module_files := (rglobSorted (.dir nm cs)).filterMap (fun pr =>
          match pr.2 with
          | .file fn =>
              if config.extensions.contains (pySuffix fn)
                  && !(should_ignore fn config) then
                some (renderPath (sdPath ++ nm :: pr.1))
              else none
          | .dir _ _ => none)
        if module_files = [] then m else dictInsert m nm module_files

/-- `discover_modules(source_dir, root, config)` for a source directory
at root-relative path `sdPath`: the direct child files with allowed
extensions under the source directory's own name (if any), then one
module per non-ignored immediate subdirectory. -/
def discover_modules (sdPath : List String) (sd : FSEntry) (config : Config) :
    List (String × List String) :=
  let top_level_files := (sortBy nameLe sd.children).filterMap (fun e =>
    match e with
    | .file fn =>
        if config.extensions.contains (pySuffix fn) then
          some (renderPath (sdPath ++ [fn]))
        else none
    | .dir _ _ => none)
  (sortBy nameLe sd.children).foldl (moduleStep sdPath config)
    (if top_level_files = [] then [] else [(sd.name, top_level_files)])

/-- The source-directory pass of `discover_all_modules`:
`all_modules.update(discover_modules(...))` in discovery order. -/
def sourcePhase (root : FSEntry) (config : Config) : List (String × List String) :=
  (discover_source_dirs root config).foldl
    (fun acc sd => dictUpdate acc (discover_modules sd.1 sd.2 config)) []

/-- One iteration of the special-directory loop of
`discover_all_modules` (note: collected files are tested only for their
extension, not against the ignore rules). -/
def specialStep (root : FSEntry) (config : Config)
    (acc : List (String × List String)) (dir_name : String) :
    List (String × List String) :=
  match findChild root dir_name with
  | some e =>
      if e.isDir && !(should_ignore dir_name config) then
        let py_files := (rglobSorted e).filterMap (fun pr =>
          match pr.2 with
          | .file fn =>
              if config.extensions.contains (pySuffix fn) then
                some (renderPath (dir_name :: pr.1))
              else none
          | .dir _ _ => none)
        if py_files = [] then acc else dictInsert acc dir_name py_files
      else acc
  | none => acc

/-- The special-directory pass of `discover_all_modules`. -/
def specialPhase (root : FSEntry) (config : Config)
    (m : List (String × List String)) : List (String × List String) :=
  SPECIAL_DIRS.foldl (specialStep root config) m

/-- The fallback of `discover_all_modules`: non-ignored root-level files
with allowed extensions under the sentinel name `"root"`. -/
def rootFallback (root : FSEntry) (config : Config) : List (String × List String) :=
  let top_py := (sortBy nameLe root.children).filterMap (fun e =>
    match e with
    | .file fn =>
        if config.extensions.contains (pySuffix fn)
            && !(should_ignore fn config) then some fn
        else none
    | .dir _ _ => none)
  if top_py = [] then [] else [("root", top_py)]

/-- `discover_all_modules(root, config)`. -/
def discover_all_modules (root : FSEntry) (config : Config) :
    List (String × List String) :=
  let all_modules := specialPhase root config (sourcePhase root config)
  if all_modules = [] then rootFallback root config else all_modules

/-- `detect_core_files(root, source_dirs, config)`: the explicit
override verbatim, or the existing fixed candidates followed by each
source directory's package-marker file, deduplicated by relative path.
No ignore rule is consulted anywhere in this function. -/
def detect_core_files (root : FSEntry)
    (source_dirs : List (List String × FSEntry)) (config : Config) :
    List String :=
  if truthyOpt config.core_files then config.core_files.getD []
  else
    source_dirs.foldl (fun core sd =>
      if hasChild sd.2 "__init__.py" then
        (let rel := renderPath (sd.1 ++ ["__init__.py"])
         if core.contains rel then core else core ++ [rel])
      else core)
      (CORE_FILE_CANDIDATES.filter (fun c => hasChild root c))

/-! ## Dictionary lemmas -/

/-- `list(d.keys())` of the association-list dictionary. -/
def dictKeys (m : List (String × α)) : List String := m.map Prod.fst

theorem dictUpdate_cons (m : List (String × α)) (p : String × α)
    (l : List (String × α)) :
    dictUpdate m (p :: l) = dictUpdate (dictInsert m p.1 p.2) l := rfl

theorem dictLookup_dictInsert_self (m : List (String × α)) (k : String) (v : α) :
    dictLookup k (dictInsert m k v) = some v := by
  induction m with
  | nil => simp [dictInsert, dictLookup]
  | cons p rest ih =>
      by_cases h : p.1 = k
      · simp [dictInsert, dictLookup, h]
      · simp [dictInsert, dictLookup, h, ih]

theorem dictLookup_dictInsert_ne (m : List (String × α)) (k k' : String) (v : α)
    (h : ¬ k = k') : dictLookup k' (dictInsert m k v) = dictLookup k' m := by
  induction m with
  | nil => simp [dictInsert, dictLookup, h]
  | cons p rest ih =>
      by_cases hp : p.1 = k
      · simp [dictInsert, dictLookup, hp, h]
      · simp [dictInsert, dictLookup, hp, ih]

theorem dictKeys_dictInsert (m : List (String × α)) (k : String) (v : α) :
    dictKeys (dictInsert m k v)
      = if k ∈ dictKeys m then dictKeys m else dictKeys m ++ [k] := by
  induction m with
  | nil => simp [dictInsert, dictKeys]
  | cons p rest ih =>
      by_cases hp : p.1 = k
      · simp [dictInsert, dictKeys, hp]
      · have hne : ¬ k = p.1 := fun hh => hp hh.symm
        simp only [dictInsert, if_neg hp, dictKeys, List.map_cons]
        rw [show List.map Prod.fst (dictInsert rest k v)
              = if k ∈ List.map Prod.fst rest then List.map Prod.fst rest
                else List.map Prod.fst rest ++ [k] from ih]
        by_cases hk : k ∈ List.map Prod.fst rest
        · simp [hk, List.mem_cons]
        · simp [hk, hne, List.mem_cons]

theorem dictKeys_nodup_dictInsert (m : List (String × α)) (k : String) (v : α)
    (h : (dictKeys m).Nodup) : (dictKeys (dictInsert m k v)).Nodup := by
  rw [dictKeys_dictInsert]
  by_cases hk : k ∈ dictKeys m
  · simpa [hk] using h
  · rw [if_neg hk]
    rw [← List.concat_eq_append]
    exact List.Nodup.concat hk h

theorem mem_dictKeys_of_lookup (m : List (String × α)) (k : String) (v : α)
    (h : dictLookup k m = some v) : k ∈ dictKeys m := by
  induction m with
  | nil => simp [dictLookup] at h
  | cons p rest ih =>
      by_cases hp : p.1 = k
      · simp [dictKeys, hp]
      · rw [dictLookup, if_neg hp] at h
        exact List.mem_cons_of_mem _ (ih h)

theorem ne_nil_of_dictLookup (m : List (String × α)) (k : String) (v : α)
    (h : dictLookup k m = some v) : m ≠ [] := by
  intro he
  subst he
  simp [dictLookup] at h

theorem dictLookup_dictUpdate_not_mem (l : List (String × α)) :
    ∀ (m : List (String × α)) (k : String), k ∉ dictKeys l →
      dictLookup k (dictUpdate m l) = dictLookup k m := by
  induction l with
  | nil => intro m k _; rfl
  | cons p rest ih =>
      intro m k h
      have h1 : ¬ p.1 = k := by
        intro hh
        exact h (by simp [dictKeys, hh])
      have h2 : k ∉ dictKeys rest := by
        intro hh
        exact h (by simp [dictKeys]; right; simpa [dictKeys] using hh)
      rw [dictUpdate_cons, ih _ _ h2, dictLookup_dictInsert_ne _ _ _ _ h1]

theorem dictLookup_dictUpdate_of_lookup (l : List (String × α)) :
    ∀ (m : List (String × α)) (k : String) (v : α), (dictKeys l).Nodup →
      dictLookup k l = some v → dictLookup k (dictUpdate m l) = some v := by
  induction l with
  | nil => intro m k v _ h; simp [dictLookup] at h
  | cons p rest ih =>
      intro m k v hnd h
      have hnd' : p.1 ∉ dictKeys rest ∧ (dictKeys rest).Nodup := by
        simpa [dictKeys] using hnd
      by_cases hp : p.1 = k
      · rw [dictLookup, if_pos hp] at h
        injection h with hv
        subst hp
        subst hv
        rw [dictUpdate_cons, dictLookup_dictUpdate_not_mem rest _ _ hnd'.1]
        exact dictLookup_dictInsert_self m p.1 p.2
      · rw [dictLookup, if_neg hp] at h
        rw [dictUpdate_cons]
        exact ih _ _ _ hnd'.2 h

theorem dictKeys_nodup_dictUpdate (l : List (String × α)) :
    ∀ (m : List (String × α)), (dictKeys m).Nodup →
      (dictKeys (dictUpdate m l)).Nodup := by
  induction l with
  | nil => intro m h; exact h
  | cons p rest ih =>
      intro m h
      rw [dictUpdate_cons]
      exact ih _ (dictKeys_nodup_dictInsert _ _ _ h)

/-! ## Discovery lemmas -/

theorem moduleStep_nodup (sdPath : List String) (config : Config)
    (m : List (String × List String)) (e : FSEntry)
    (h : (dictKeys m).Nodup) : (dictKeys (moduleStep sdPath config m e)).Nodup := by
  cases e with
  | file _ => exact h
  | dir nm cs =>
      simp only [moduleStep]
      split
      · exact h
      · split
        · exact h
        · exact dictKeys_nodup_dictInsert _ _ _ h

theorem foldl_moduleStep_nodup (sdPath : List String) (config : Config)
    (l : List FSEntry) :
    ∀ (m : List (String × List String)), (dictKeys m).Nodup →
      (dictKeys (l.foldl (moduleStep sdPath config) m)).Nodup := by
  induction l with
  | nil => intro m h; exact h
  | cons e rest ih =>
      intro m h
      rw [List.foldl_cons]
      exact ih _ (moduleStep_nodup sdPath config m e h)

theorem discover_modules_keys_nodup (sdPath : List String) (sd : FSEntry)
    (config : Config) : (dictKeys (discover_modules sdPath sd config)).Nodup := by
  simp only [discover_modules]
  apply foldl_moduleStep_nodup
  split
  · simp [dictKeys]
  · simp [dictKeys]

theorem specialStep_lookup_ne (root : FSEntry) (config : Config)
    (acc : List (String × List String)) (dn k : String) (h : ¬ dn = k) :
    dictLookup k (specialStep root config acc dn) = dictLookup k acc := by
  rcases hfc : findChild root dn with _ | e
  · simp only [specialStep, hfc]
  · simp only [specialStep, hfc]
    split
    · split
      · rfl
      · exact dictLookup_dictInsert_ne _ _ _ _ h
    · rfl

theorem specialStep_nodup (root : FSEntry) (config : Config)
    (acc : List (String × List String)) (dn : String)
    (h : (dictKeys acc).Nodup) :
    (dictKeys (specialStep root config acc dn)).Nodup := by
  rcases hfc : findChild root dn with _ | e
  · simpa only [specialStep, hfc] using h
  · simp only [specialStep, hfc]
    split
    · split
      · exact h
      · exact dictKeys_nodup_dictInsert _ _ _ h
    · exact h

theorem foldl_specialStep_lookup (root : FSEntry) (config : Config)
    (l : List String) :
    ∀ (m : List (String × List String)) (k : String), (∀ d ∈ l, ¬ d = k) →
      dictLookup k (l.foldl (specialStep root config) m) = dictLookup k m := by
  induction l with
  | nil => intro m k _; rfl
  | cons d rest ih =>
      intro m k h
      rw [List.foldl_cons, ih _ _ (fun x hx => h x (List.mem_cons_of_mem _ hx)),
          specialStep_lookup_ne root config m d k (h d (List.mem_cons_self _ _))]

theorem foldl_specialStep_nodup (root : FSEntry) (config : Config)
    (l : List String) :
    ∀ (m : List (String × List String)), (dictKeys m).Nodup →
      (dictKeys (l.foldl (specialStep root config) m)).Nodup := by
  induction l with
  | nil => intro m h; exact h
  | cons d rest ih =>
      intro m h
      rw [List.foldl_cons]
      exact ih _ (specialStep_nodup root config m d h)

/-! ## Claims C6, C7 (module discovery) -/

/-- Claim C6: when the two source directories processed in sequence each
contribute a non-empty module under the same name, the final module map
holds exactly one entry under that name (its key occurs once), and its
file list is the one collected from the later-processed source directory
— `all_modules.update(...)` overwrites, last wins.  (The shared name is
assumed not to collide with the special-directory pass, which runs
afterwards and would otherwise overwrite in turn.) -/
theorem C6_same_name_modules_overwrite (root : FSEntry) (config : Config)
    (d1 d2 : List String × FSEntry) (n : String) (fs1 fs2 : List String)
    (hs : discover_source_dirs root config = [d1, d2])
    (h1 : dictLookup n (discover_modules d1.1 d1.2 config) = some fs1)
    (h2 : dictLookup n (discover_modules d2.1 d2.2 config) = some fs2)
    (hn : n ∉ SPECIAL_DIRS) :
    dictLookup n (discover_all_modules root config) = some fs2
      ∧ (dictKeys (discover_all_modules root config)).count n = 1 := by
  have hsp : sourcePhase root config
      = dictUpdate (dictUpdate [] (discover_modules d1.1 d1.2 config))
          (discover_modules d2.1 d2.2 config) := by
    unfold sourcePhase
    rw [hs]
    rfl
  have hlook1 : dictLookup n (sourcePhase root config) = some fs2 := by
    rw [hsp]
    exact dictLookup_dictUpdate_of_lookup _ _ _ _
      (discover_modules_keys_nodup d2.1 d2.2 config) h2
  have hndsrc : (dictKeys (sourcePhase root config)).Nodup := by
    rw [hsp]
    exact dictKeys_nodup_dictUpdate _ _
      (dictKeys_nodup_dictUpdate _ _ (by simp [dictKeys]))
  have hlook2 : dictLookup n (specialPhase root config (sourcePhase root config))
      = some fs2 := by
    unfold specialPhase
    rw [foldl_specialStep_lookup root config SPECIAL_DIRS _ n
        (fun d hd hdn => hn (hdn ▸ hd))]
    exact hlook1
  have hndall :
      (dictKeys (specialPhase root config (sourcePhase root config))).Nodup := by
    unfold specialPhase
    exact foldl_specialStep_nodup root config SPECIAL_DIRS _ hndsrc
  have hne : specialPhase root config (sourcePhase root config) ≠ [] :=
    ne_nil_of_dictLookup _ _ _ hlook2
  have hall : discover_all_modules root config
      = specialPhase root config (sourcePhase root config) := by
    simp only [discover_all_modules]
    rw [if_neg hne]
  rw [hall]
  exact ⟨hlook2, List.count_eq_one_of_mem hndall
    (mem_dictKeys_of_lookup _ _ _ hlook2)⟩

/-- The filesystem of the C6 witness: two configured source directories
`a` and `b`, each holding a non-empty subdirectory named `common`. -/
def C6root : FSEntry :=
  .dir "" [.dir "a" [.dir "common" [.file "one.py"]],
           .dir "b" [.dir "common" [.file "two.py"]]]

/-- The C6 witness configuration: explicit source-directory override
`["a", "b"]`, everything else as in `DEFAULT_CONFIG`. -/
def C6config : Config :=
  { DEFAULT_CONFIG with source_dirs := some ["a", "b"] }

/-- Witness for C6 at a concrete input: both source directories define a
module `common`; the final map holds one `common` entry carrying the
later directory's files. -/
theorem C6_same_name_modules_overwrite_witness :
    discover_source_dirs C6root C6config
        = [(["a"], .dir "a" [.dir "common" [.file "one.py"]]),
           (["b"], .dir "b" [.dir "common" [.file "two.py"]])]
      ∧ (dictLookup "common" (discover_all_modules C6root C6config)
            = some ["b/common/two.py"]
        ∧ (dictKeys (discover_all_modules C6root C6config)).count "common" = 1) :=
  ⟨rfl,
   C6_same_name_modules_overwrite C6root C6config
     (["a"], .dir "a" [.dir "common" [.file "one.py"]])
     (["b"], .dir "b" [.dir "common" [.file "two.py"]])
     "common" ["a/common/one.py"] ["b/common/two.py"]
     rfl (by decide) (by decide) (by decide)⟩

/-- The filesystem of spec Scenario A: the root holds exactly
`pkg/__init__.py`, `pkg/core.py`, `pkg/sub/__init__.py` and
`pkg/sub/x.py`. -/
def C7root : FSEntry :=
  .dir "" [.dir "pkg" [.file "__init__.py", .file "core.py",
           .dir "sub" [.file "__init__.py", .file "x.py"]]]

/-- Claim C7: on Scenario A with extension filter `{".py"}` and the
default exclusion rules, module discovery returns exactly the two-entry
map `pkg` then `sub`, with those file lists in that order. -/
theorem C7_scenario_A :
    discover_all_modules C7root DEFAULT_CONFIG
      = [("pkg", ["pkg/__init__.py", "pkg/core.py"]),
         ("sub", ["pkg/sub/__init__.py", "pkg/sub/x.py"])] := by decide

/-! ## Claim C1 (exclusion closure) -/

/-- The directory segments of a rendered root-relative path (everything
below the root, excluding the file's own name). -/
def parentSegments (p : String) : List String := (splitSlash p).dropLast

/-- The filesystem of the C1 counterexample: the module subdirectory
`pkg/sub` holds an excluded `__pycache__` directory with a Python file
inside. -/
def C1root : FSEntry :=
  .dir "" [.dir "pkg" [.file "__init__.py",
           .dir "sub" [.dir "__pycache__" [.file "cached.py"]]]]

/-- Counterexample to claim C1 as stated: module discovery emits the path
`pkg/sub/__pycache__/cached.py` although its ancestor directory segment
`__pycache__` matches the exclusion rules — `discover_modules` collects
`rglob` results checking only the immediate subdirectory name and the
file's own basename, never intermediate directory segments. -/
theorem C1_exclusion_closure_counterexample :
    "pkg/sub/__pycache__/cached.py"
        ∈ ((discover_all_modules C1root DEFAULT_CONFIG).map Prod.snd).flatten
      ∧ "__pycache__" ∈ parentSegments "pkg/sub/__pycache__/cached.py"
      ∧ should_ignore "__pycache__" DEFAULT_CONFIG = true := by decide

/-- Claim C1 (amended): exclusion closure holds for the file-listing
walk (`discover_all_files` / `_walk`), which tests every path segment:
every emitted path lies below the walk's starting prefix, every directory
segment below it is non-excluded, and so is the file's basename.  Module
discovery only enforces exclusion where it explicitly applies
`_should_ignore` (source-directory candidates at the root, immediate
subdirectories of a source directory, basenames of collected files, and
special-directory names), so paths under deeper excluded directories can
appear there (see the counterexample). -/
theorem C1_exclusion_closure_amended (config : Config)
    (extF : Option (List String)) :
    ∀ (fuel : Nat) (pfx : List String) (e : FSEntry) (d : List String)
      (n : String),
      (d, n) ∈ walkEntryF config extF fuel pfx e →
      (∃ tail, d = pfx ++ tail ∧ ∀ s ∈ tail, should_ignore s config = false)
      ∧ should_ignore n config = false := by
  intro fuel
  induction fuel with
  | zero => intro pfx e d n h; simp [walkEntryF] at h
  | succ fuel ih =>
      intro pfx e d n h
      cases e with
      | file _ => simp [walkEntryF] at h
      | dir nm cs =>
          simp only [walkEntryF] at h
          obtain ⟨c, _, hmem⟩ := List.mem_flatMap.1 h
          by_cases hig : should_ignore c.name config = true
          · rw [if_pos hig] at hmem
            simp at hmem
          · rw [if_neg hig] at hmem
            have hig' : should_ignore c.name config = false := by
              simpa using hig
            cases c with
            | file fn =>
                dsimp only at hmem
                by_cases hext : extAllowed extF fn = true
                · rw [if_pos hext] at hmem
                  simp only [List.mem_singleton, Prod.mk.injEq] at hmem
                  obtain ⟨rfl, rfl⟩ := hmem
                  exact ⟨⟨[], by simp, by simp⟩, by simpa [FSEntry.name] using hig'⟩
                · rw [if_neg hext] at hmem
                  simp at hmem
            | dir dn dcs =>
                dsimp only at hmem
                obtain ⟨⟨tail, hd, htail⟩, hn⟩ := ih (pfx ++ [dn]) (.dir dn dcs) d n hmem
                refine ⟨⟨dn :: tail, by simpa [List.append_assoc] using hd, ?_⟩, hn⟩
                intro s hs
                rcases List.mem_cons.1 hs with rfl | hs'
                · simpa [FSEntry.name] using hig'
                · exact htail s hs'

/-- The filesystem of the C1 amended-claim witness. -/
def C1Wroot : FSEntry := .dir "" [.dir "a" [.file "b.py"]]

/-- Witness for the amended C1 at a concrete input: the file-listing walk
emits `a/b.py`, and neither the segment `a` nor the basename `b.py` is
excluded. -/
theorem C1_exclusion_closure_amended_witness :
    ((["a"], "b.py") ∈ walkEntryF DEFAULT_CONFIG none (sizeE C1Wroot) [] C1Wroot)
      ∧ ((∃ tail, ["a"] = ([] : List String) ++ tail
            ∧ ∀ s ∈ tail, should_ignore s DEFAULT_CONFIG = false)
        ∧ should_ignore "b.py" DEFAULT_CONFIG = false) :=
  ⟨by decide,
   C1_exclusion_closure_amended DEFAULT_CONFIG none (sizeE C1Wroot) [] C1Wroot
     ["a"] "b.py" (by decide)⟩

/-! ## Claim C10 (core files bypass the ignore rules) -/

/-- One step of the source-directory loop of `detect_core_files`. -/
theorem mem_detect_core_foldl (sds : List (List String × FSEntry)) :
    ∀ (core : List String) (c : String), c ∈ core →
      c ∈ sds.foldl (fun core sd =>
        if hasChild sd.2 "__init__.py" then
          (let rel := renderPath (sd.1 ++ ["__init__.py"])
           if core.contains rel then core else core ++ [rel])
        else core) core := by
  induction sds with
  | nil => intro core c h; simpa using h
  | cons sd rest ih =>
      intro core c h
      rw [List.foldl_cons]
      apply ih
      split
      · dsimp only
        split
        · exact h
        · exact List.mem_append_left _ h
      · exact h

/-- Claim C10: core-file detection never applies the exclusion rules —
whenever auto-detection is active, every fixed candidate that exists at
the root is in the core file list, with no ignore test anywhere on the
path (no hypothesis about `should_ignore` is needed); in particular the
hidden candidate `.env.example` is excluded from every traversal by the
hidden-entry rule, yet is listed whenever it exists at the root. -/
theorem C10_core_files_bypass_ignore (root : FSEntry)
    (sds : List (List String × FSEntry)) (config : Config) (c : String)
    (hcore : truthyOpt config.core_files = false)
    (hc : c ∈ CORE_FILE_CANDIDATES) (hex : hasChild root c = true) :
    c ∈ detect_core_files root sds config
      ∧ should_ignore ".env.example" DEFAULT_CONFIG = true := by
  refine ⟨?_, by decide⟩
  unfold detect_core_files
  rw [if_neg (by simp [hcore])]
  exact mem_detect_core_foldl sds _ c (List.mem_filter.2 ⟨hc, hex⟩)

/-- The filesystem of the C10 witness. -/
def C10root : FSEntry := .dir "" [.file ".env.example", .file "pyproject.toml"]

/-- Witness for C10 at a concrete input: `.env.example` exists at the
root, is matched by the hidden-entry exclusion rule, and still appears in
the detected core files. -/
theorem C10_core_files_bypass_ignore_witness :
    truthyOpt DEFAULT_CONFIG.core_files = false
      ∧ ".env.example" ∈ CORE_FILE_CANDIDATES
      ∧ hasChild C10root ".env.example" = true
      ∧ (".env.example" ∈ detect_core_files C10root [] DEFAULT_CONFIG
        ∧ should_ignore ".env.example" DEFAULT_CONFIG = true) :=
  ⟨by decide, by decide, by decide,
   C10_core_files_bypass_ignore C10root [] DEFAULT_CONFIG ".env.example"
     (by decide) (by decide) (by decide)⟩

/-! ## Claim C8 (`get_git_changed_files`) -/

/-- Outcome of one `subprocess.run(["git", ...], check=True)` call:
success with captured stdout, `CalledProcessError` (non-zero exit), or
`FileNotFoundError` (the `git` executable is absent). -/
inductive ProcResult where
  | ok (stdout : String)
  | calledProcessError
  | fileNotFoundError
deriving DecidableEq

/-- The three git invocations `get_git_changed_files` makes. -/
structure GitEnv where
  diffHead : ProcResult
  diffCached : ProcResult
  lsFilesOthers : ProcResult

/-- A Python exception escaping to the caller. -/
inductive PyError where
  | calledProcessError
  | fileNotFoundError
deriving DecidableEq

/-- `result.stdout.strip().split("\n")`. -/
def gitLines (stdout : String) : List String := splitLines (pyStrip stdout)

/-- The `seen`-set deduplication loop at the end of
`get_git_changed_files` (keep the first occurrence of each path). -/
def dedupPreserve (l : List String) : List String :=
  (l.foldl (fun p f => if p.1.contains f then p else (p.1 ++ [f], p.2 ++ [f]))
    (([], []) : List String × List String)).2

/-- `get_git_changed_files(root, extensions)`.  The first `try` block is
guarded only by `except subprocess.CalledProcessError`, so a
`FileNotFoundError` raised by the first invocation propagates (modelled
as `Except.error`); the nested `try` and the second `try` both catch
`(CalledProcessError, FileNotFoundError)` and fall through. -/
def get_git_changed_files (env : GitEnv) (extensions : List String) :
    Except PyError (List String) :=
  let step1 : Except PyError (List String) :=
    match env.diffHead with
    | .ok out => .ok (gitLines out)
    | .calledProcessError =>
        match env.diffCached with
        | .ok out => .ok (gitLines out)
        | .calledProcessError => .ok []
        | .fileNotFoundError => .ok []
    | .fileNotFoundError => .error .fileNotFoundError
  match step1 with
  | .error e => .error e
  | .ok changed1 =>
      let changed2 :=
        match env.lsFilesOthers with
        | .ok out => changed1 ++ gitLines out
        | .calledProcessError => changed1
        | .fileNotFoundError => changed1
      .ok (dedupPreserve (changed2.filter
        (fun f => f ≠ "" && extensions.any (fun e => f.endsWith e))))

/-- Claim C8 concerns a code bug: when the `git` executable is absent,
the first invocation raises `FileNotFoundError`, which the surrounding
`except subprocess.CalledProcessError` clause does not catch — the
exception propagates to the caller instead of degrading to an empty
changed-file list (first conjunct).  When the commands fail with
`CalledProcessError` the function does degrade to an empty list (second
conjunct), and the other two invocations do catch `FileNotFoundError`
(third conjunct), which shows the propagation on the first call is a
slip rather than a design choice. -/
theorem C8_git_absent_raises :
    get_git_changed_files
        ⟨.fileNotFoundError, .ok "", .ok ""⟩ [".py"]
      = .error .fileNotFoundError
    ∧ get_git_changed_files
        ⟨.calledProcessError, .calledProcessError, .calledProcessError⟩ [".py"]
      = .ok []
    ∧ get_git_changed_files
        ⟨.calledProcessError, .fileNotFoundError, .fileNotFoundError⟩ [".py"]
      = .ok [] :=
  ⟨rfl, rfl, rfl⟩

/-! ## Claim C9 (`cdata_wrap`) -/

/-- The CDATA terminator `"]]>"` as characters. -/
def CLOSE : List Char := [']', ']', '>']

/-- The CDATA opener `"<![CDATA["` as characters. -/
def CDATA_OPEN : List Char := ['<', '!', '[', 'C', 'D', 'A', 'T', 'A', '[']

/-- The join separator `"]]]]><![CDATA[>"` from the source: it closes
the current section after an extra `"]]"` and reopens one whose payload
starts with `">"`. -/
def SEP_CHARS : List Char :=
  [']', ']', ']', ']', '>', '<', '!', '[', 'C', 'D', 'A', 'T', 'A', '[', '>']

/-- Index of the first occurrence of `sep` in a character list
(Python `str.find`). -/
def findSeq (sep : List Char) : List Char → Option Nat
  | [] => if sep.isPrefixOf ([] : List Char) then some 0 else none
  | c :: cs => if sep.isPrefixOf (c :: cs) then some 0
               else (findSeq sep cs).map (· + 1)

/-- Python `sep in content`. -/
def hasSeq (sep l : List Char) : Bool := (findSeq sep l).isSome

/-- `"]]>"` occurs nowhere in the list (checked position by position). -/
def noClose : List Char → Bool
  | [] => true
  | c :: cs => !(CLOSE.isPrefixOf (c :: cs)) && noClose cs

theorem noClose_cons (c : Char) (cs : List Char) :
    noClose (c :: cs) = (!(CLOSE.isPrefixOf (c :: cs)) && noClose cs) := rfl

theorem isPrefixOf_exists : ∀ (l₁ l₂ : List Char), l₁.isPrefixOf l₂ = true →
    ∃ t, l₂ = l₁ ++ t := by
  intro l₁
  induction l₁ with
  | nil => intro l₂ _; exact ⟨l₂, rfl⟩
  | cons a as ih =>
      intro l₂ h
      cases l₂ with
      | nil => simp [List.isPrefixOf] at h
      | cons b bs =>
          simp only [List.isPrefixOf, Bool.and_eq_true, beq_iff_eq] at h
          obtain ⟨t, ht⟩ := ih bs h.2
          refine ⟨t, ?_⟩
          rw [ht, ← h.1]
          rfl

theorem isPrefixOf_append (l₁ t : List Char) : l₁.isPrefixOf (l₁ ++ t) = true := by
  induction l₁ with
  | nil => simp [List.isPrefixOf]
  | cons a as ih => simp [List.isPrefixOf, ih]

theorem findSeq_close_bound : ∀ (l : List Char) (i : Nat),
    findSeq CLOSE l = some i → i + 3 ≤ l.length := by
  intro l
  induction l with
  | nil => intro i h; simp [findSeq, CLOSE, List.isPrefixOf] at h
  | cons c cs ih =>
      intro i h
      rw [findSeq] at h
      by_cases hp : CLOSE.isPrefixOf (c :: cs) = true
      · rw [if_pos hp] at h
        injection h with hi
        subst hi
        obtain ⟨t, ht⟩ := isPrefixOf_exists CLOSE (c :: cs) hp
        have h3 : CLOSE.length = 3 := rfl
        rw [ht, List.length_append, h3]
        omega
      · rw [if_neg hp] at h
        rcases Option.map_eq_some'.1 h with ⟨i', hi', rfl⟩
        have := ih i' hi'
        simp only [List.length_cons]
        omega

theorem findSeq_none_noClose : ∀ (l : List Char),
    findSeq CLOSE l = none → noClose l = true := by
  intro l
  induction l with
  | nil => intro _; rfl
  | cons c cs ih =>
      intro h
      rw [findSeq] at h
      by_cases hp : CLOSE.isPrefixOf (c :: cs) = true
      · rw [if_pos hp] at h
        cases h
      · rw [if_neg hp] at h
        rw [noClose_cons]
        have h2 : findSeq CLOSE cs = none := by
          cases hx : findSeq CLOSE cs
          · rfl
          · rw [hx] at h
            cases h
        simp [hp, ih h2]

theorem findSeq_reconstruct : ∀ (l : List Char) (i : Nat),
    findSeq CLOSE l = some i → l = l.take i ++ CLOSE ++ l.drop (i + 3) := by
  intro l
  induction l with
  | nil => intro i h; simp [findSeq, CLOSE, List.isPrefixOf] at h
  | cons c cs ih =>
      intro i h
      rw [findSeq] at h
      by_cases hp : CLOSE.isPrefixOf (c :: cs) = true
      · rw [if_pos hp] at h
        injection h with hi
        subst hi
        obtain ⟨t, ht⟩ := isPrefixOf_exists CLOSE (c :: cs) hp
        rw [ht]
        have hdrop : (CLOSE ++ t).drop (0 + 3) = t := by
          have : (3 : Nat) = CLOSE.length := rfl
          simp [this, List.drop_left]
        rw [hdrop]
        simp
      · rw [if_neg hp] at h
        rcases Option.map_eq_some'.1 h with ⟨i', hi', rfl⟩
        have hrec := ih i' hi'
        calc c :: cs = c :: (cs.take i' ++ CLOSE ++ cs.drop (i' + 3)) := by
                rw [← hrec]
          _ = (c :: cs).take (i' + 1) ++ CLOSE ++ (c :: cs).drop (i' + 1 + 3) := by
                simp [List.take_cons, List.drop_succ_cons]

theorem findSeq_take_noClose : ∀ (l : List Char) (i : Nat),
    findSeq CLOSE l = some i → noClose (l.take i) = true := by
  intro l
  induction l with
  | nil => intro i h; simp [findSeq, CLOSE, List.isPrefixOf] at h
  | cons c cs ih =>
      intro i h
      rw [findSeq] at h
      by_cases hp : CLOSE.isPrefixOf (c :: cs) = true
      · rw [if_pos hp] at h
        injection h with hi
        subst hi
        rfl
      · rw [if_neg hp] at h
        rcases Option.map_eq_some'.1 h with ⟨i', hi', rfl⟩
        rw [List.take_succ_cons, noClose_cons]
        have hnp : CLOSE.isPrefixOf (c :: cs.take i') = false := by
          cases hx : CLOSE.isPrefixOf (c :: cs.take i')
          · rfl
          · exfalso
            apply hp
            obtain ⟨t, ht⟩ := isPrefixOf_exists CLOSE (c :: cs.take i') hx
            have hsplit : c :: cs = (c :: cs.take i') ++ cs.drop i' := by
              rw [List.cons_append, List.take_append_drop]
            rw [hsplit, ht, List.append_assoc]
            exact isPrefixOf_append CLOSE (t ++ cs.drop i')
        simp [hnp, ih i' hi']

/-- Python `content.split("]]>")`: take up to the first occurrence,
drop the separator, recurse on the remainder. -/
def pySplitClose (l : List Char) : List (List Char) :=
  match h : findSeq CLOSE l with
  | none => [l]
  | some i => l.take i :: pySplitClose (l.drop (i + 3))
termination_by l.length
decreasing_by
  have := findSeq_close_bound _ _ h
  simp only [List.length_drop]
  omega

theorem pySplitClose_eq_none (l : List Char) (h : findSeq CLOSE l = none) :
    pySplitClose l = [l] := by
  rw [pySplitClose.eq_def]
  split
  · rfl
  · rename_i i heq
    rw [h] at heq
    cases heq

theorem pySplitClose_eq_some (l : List Char) (i : Nat)
    (h : findSeq CLOSE l = some i) :
    pySplitClose l = l.take i :: pySplitClose (l.drop (i + 3)) := by
  rw [pySplitClose.eq_def]
  split
  · rename_i heq
    rw [h] at heq
    cases heq
  · rename_i j heq
    rw [h] at heq
    injection heq with hj
    subst hj
    rfl

theorem pySplitClose_ne_nil (l : List Char) : pySplitClose l ≠ [] := by
  cases hf : findSeq CLOSE l with
  | none => rw [pySplitClose_eq_none l hf]; simp
  | some i => rw [pySplitClose_eq_some l i hf]; simp

/-- Python `sep.join(parts)`. -/
def joinWith (sep : List Char) : List (List Char) → List Char
  | [] => []
  | [p] => p
  | p :: rest => p ++ sep ++ joinWith sep rest

/-- The tail of a separator join: `sep ++ q₁ ++ sep ++ q₂ ++ ...`. -/
def sepJoin (sep : List Char) : List (List Char) → List Char
  | [] => []
  | q :: qs => sep ++ q ++ sepJoin sep qs

theorem joinWith_cons (sep : List Char) : ∀ (qs : List (List Char)) (f : List Char),
    joinWith sep (f :: qs) = f ++ sepJoin sep qs := by
  intro qs
  induction qs with
  | nil => intro f; simp [joinWith, sepJoin]
  | cons q qs ih =>
      intro f
      rw [show joinWith sep (f :: q :: qs) = f ++ sep ++ joinWith sep (q :: qs) from rfl,
          ih q]
      simp [sepJoin, List.append_assoc]

theorem pySplitClose_spec_aux (N : Nat) : ∀ (l : List Char), l.length < N →
    joinWith CLOSE (pySplitClose l) = l
      ∧ ∀ q ∈ pySplitClose l, noClose q = true := by
  induction N with
  | zero => intro l h; omega
  | succ N ih =>
      intro l hl
      cases hf : findSeq CLOSE l with
      | none =>
          rw [pySplitClose_eq_none l hf]
          refine ⟨rfl, ?_⟩
          intro q hq
          rw [List.mem_singleton.1 hq]
          exact findSeq_none_noClose l hf
      | some i =>
          have hb := findSeq_close_bound l i hf
          have hlen : (l.drop (i + 3)).length < N := by
            simp only [List.length_drop]
            omega
          obtain ⟨hjoin, hparts⟩ := ih (l.drop (i + 3)) hlen
          rw [pySplitClose_eq_some l i hf]
          constructor
          · rcases hsp : pySplitClose (l.drop (i + 3)) with _ | ⟨p, ps⟩
            · exact absurd hsp (pySplitClose_ne_nil _)
            · rw [hsp] at hjoin
              rw [show joinWith CLOSE (l.take i :: p :: ps)
                    = l.take i ++ CLOSE ++ joinWith CLOSE (p :: ps) from rfl,
                  hjoin]
              exact (findSeq_reconstruct l i hf).symm
          · intro q hq
            rcases List.mem_cons.1 hq with rfl | hq'
            · exact findSeq_take_noClose l i hf
            · exact hparts q hq'

theorem pySplitClose_spec (l : List Char) :
    joinWith CLOSE (pySplitClose l) = l
      ∧ ∀ q ∈ pySplitClose l, noClose q = true :=
  pySplitClose_spec_aux (l.length + 1) l (by omega)

theorem noClose_append_brackets : ∀ (p : List Char), noClose p = true →
    noClose (p ++ [']', ']']) = true := by
  intro p
  induction p with
  | nil => intro _; decide
  | cons c p' ih =>
      intro h
      have h1 : CLOSE.isPrefixOf (c :: p') = false := by
        cases hx : CLOSE.isPrefixOf (c :: p')
        · rfl
        · rw [noClose_cons, hx] at h
          simp at h
      have h2 : noClose p' = true := by
        rw [noClose_cons, Bool.and_eq_true] at h
        exact h.2
      show noClose (c :: (p' ++ [']', ']'])) = true
      rw [noClose_cons, Bool.and_eq_true]
      refine ⟨?_, ih h2⟩
      rw [Bool.not_eq_true']
      cases p' with
      | nil => simp [CLOSE, List.isPrefixOf]
      | cons d p'' =>
          cases p'' with
          | nil => simp [CLOSE, List.isPrefixOf]
          | cons e p''' =>
              simp only [CLOSE, List.cons_append, List.isPrefixOf] at h1 ⊢
              simpa using h1

theorem noClose_cons_gt (p : List Char) (h : noClose p = true) :
    noClose ('>' :: p) = true := by
  rw [noClose_cons, Bool.and_eq_true]
  refine ⟨?_, h⟩
  rw [Bool.not_eq_true']
  cases p <;> simp [CLOSE, List.isPrefixOf]

/-- `cdata_wrap(content)` on characters: if `"]]>"` occurs, split on it
and join with `"]]]]><![CDATA[>"`, else wrap directly. -/
def cdataWrapL (content : List Char) : List Char :=
  if hasSeq CLOSE content then
    CDATA_OPEN ++ joinWith SEP_CHARS (pySplitClose content) ++ CLOSE
  else CDATA_OPEN ++ content ++ CLOSE

/-- `cdata_wrap(content)` from the source. -/
def cdata_wrap (s : String) : String := String.mk (cdataWrapL s.data)

/-- `CDataSections w ps`: the string `w` is the concatenation of one or
more well-formed CDATA sections whose payloads are `ps` in order, where
no payload contains the terminator `"]]>"`.  Since a terminator cannot
straddle a payload/terminator boundary (its first two characters are
`']'` and the character before a terminator would have to be `'>'`),
each payload is exactly the text from its opener up to the first
`"]]>"` that follows — the claim's reading of a CDATA parse. -/
inductive CDataSections : List Char → List (List Char) → Prop where
  | single (p : List Char) (hp : noClose p = true) :
      CDataSections (CDATA_OPEN ++ p ++ CLOSE) [p]
  | cons (p l : List Char) (ps : List (List Char)) (hp : noClose p = true)
      (h : CDataSections l ps) :
      CDataSections (CDATA_OPEN ++ p ++ CLOSE ++ l) (p :: ps)

theorem cdataSections_noClose (l : List Char) (ps : List (List Char))
    (h : CDataSections l ps) : ∀ p ∈ ps, noClose p = true := by
  induction h with
  | single p hp =>
      intro x hx
      rw [List.mem_singleton.1 hx]
      exact hp
  | cons p l ps hp _ ih =>
      intro x hx
      rcases List.mem_cons.1 hx with h' | hx'
      · rw [h']; exact hp
      · exact ih x hx'

theorem cdata_sections_exist : ∀ (parts : List (List Char)) (f : List Char),
    noClose f = true → (∀ q ∈ parts, noClose q = true) →
    ∃ ps, CDataSections (CDATA_OPEN ++ f ++ sepJoin SEP_CHARS parts ++ CLOSE) ps
      ∧ ps.flatten = f ++ sepJoin CLOSE parts ∧ ps ≠ [] := by
  intro parts
  induction parts with
  | nil =>
      intro f hf _
      refine ⟨[f], ?_, by simp [sepJoin], by simp⟩
      simpa [sepJoin] using CDataSections.single f hf
  | cons q qs ih =>
      intro f hf hq
      obtain ⟨ps', hsec, hjoin, _⟩ := ih ('>' :: q)
        (noClose_cons_gt q (hq q (List.mem_cons_self _ _)))
        (fun x hx => hq x (List.mem_cons_of_mem _ hx))
      refine ⟨(f ++ [']', ']']) :: ps', ?_, ?_, by simp⟩
      · have hstr : CDATA_OPEN ++ f ++ sepJoin SEP_CHARS (q :: qs) ++ CLOSE
            = CDATA_OPEN ++ (f ++ [']', ']']) ++ CLOSE
              ++ (CDATA_OPEN ++ ('>' :: q) ++ sepJoin SEP_CHARS qs ++ CLOSE) := by
          simp [sepJoin, SEP_CHARS, CDATA_OPEN, CLOSE, List.append_assoc]
        rw [hstr]
        exact CDataSections.cons _ _ _ (noClose_append_brackets f hf) hsec
      · rw [List.flatten_cons, hjoin]
        simp [sepJoin, CLOSE, List.append_assoc]

/-- Claim C9: for every string, `cdata_wrap` produces a concatenation of
one or more well-formed CDATA sections — no section payload contains the
terminator `"]]>"` (so each payload is the text up to the first
terminator after its opener) — and the payloads concatenate back to the
original content exactly, so CDATA decoding round-trips. -/
theorem C9_cdata_roundtrip (s : String) :
    ∃ ps, CDataSections (cdata_wrap s).data ps ∧ ps ≠ []
      ∧ ps.flatten = s.data ∧ ∀ p ∈ ps, noClose p = true := by
  have hdata : (cdata_wrap s).data = cdataWrapL s.data := rfl
  rw [hdata]
  unfold cdataWrapL
  by_cases hh : hasSeq CLOSE s.data = true
  · rw [if_pos hh]
    have hspec := pySplitClose_spec s.data
    rcases hsp : pySplitClose s.data with _ | ⟨f, qs⟩
    · exact absurd hsp (pySplitClose_ne_nil s.data)
    · have hf : noClose f = true := by
        apply hspec.2
        rw [hsp]
        exact List.mem_cons_self _ _
      have hqs : ∀ q ∈ qs, noClose q = true := by
        intro q hq
        apply hspec.2
        rw [hsp]
        exact List.mem_cons_of_mem _ hq
      obtain ⟨ps, hsec, hjoin, hne⟩ := cdata_sections_exist qs f hf hqs
      refine ⟨ps, ?_, hne, ?_, cdataSections_noClose _ _ hsec⟩
      · rw [joinWith_cons]
        simpa [List.append_assoc] using hsec
      · rw [hjoin, ← joinWith_cons, ← hsp]
        exact hspec.1
  · rw [if_neg hh]
    have hfs : findSeq CLOSE s.data = none := by
      cases hx : findSeq CLOSE s.data
      · rfl
      · exact absurd (by simp [hasSeq, hx]) hh
    have hno : noClose s.data = true := findSeq_none_noClose _ hfs
    refine ⟨[s.data], CDataSections.single _ hno, by simp, by simp, ?_⟩
    intro p hp
    rw [List.mem_singleton.1 hp]
    exact hno
